import Mathlib

/-
  Verification development for the t-SNE core of the DruidJS repository
  (src/dimred/TSNE.js, first and second code blocks, and the
  sgn-comparison variant in src/src/dimred/TSNE.js).

  Embedding conventions:
  * Machine reals are modelled by the rationals; all arithmetic the claims
    concern (normalization, symmetrization, gradient, optimizer update,
    centering) is field arithmetic and is translated literally.
  * The transcendental kernel values exp(-beta * Delta[i][j]) produced by
    the per-row entropy search are abstracted as a parameter
    E : Fin N -> Fin N -> Q; the code fixes the diagonal to 1e-9 before
    any arithmetic, which is kept concrete (pRaw below).
  * Matrix.row(i) in the repository returns a live subarray view of the
    row-major storage, so loops that write through row views mutate the
    matrix in place.  Each in-place loop below was unrolled by hand to a
    pure function; the unrolling argument is recorded at the definition.
-/

namespace DruidJS

/-- Kernel matrix right before row normalization in init
    (src/dimred/TSNE.js lines 66-72): entry (i,j) is exp(-dist*beta) for
    i different from j (abstracted as E i j) and the constant 1e-9 on the
    diagonal. -/
def pRaw (N : ℕ) (E : Fin N → Fin N → ℚ) (i j : Fin N) : ℚ :=
  if i = j then 1 / 1000000000 else E i j

/-- Sum of row i of a square matrix (the psum accumulator of the source). -/
def rowSum {N : ℕ} (M : Fin N → Fin N → ℚ) (i : Fin N) : ℚ := ∑ j, M i j

/-- Sum of all entries of a square matrix. -/
def totalSum {N : ℕ} (M : Fin N → Fin N → ℚ) : ℚ := ∑ i, ∑ j, M i j

/-- Row normalization of the first init variant
    (src/dimred/TSNE.js lines 84-88): prow[j] *= 1/(2*N*psum). -/
def normalizeRow1 {N : ℕ} (M : Fin N → Fin N → ℚ) (i j : Fin N) : ℚ :=
  M i j * (1 / (2 * N * rowSum M i))

/-- Row normalization of the second init variant
    (src/dimred/TSNE.js lines 293-296): prow[j] /= psum. -/
def normalizeRow2 {N : ℕ} (M : Fin N → Fin N → ℚ) (i j : Fin N) : ℚ :=
  M i j / rowSum M i

/-- Symmetrization of the first init variant (src/dimred/TSNE.js lines
    92-97).  The in-place loop runs j from i upward and performs
    P[i][j] += P[j][i]; P[j][i] = P[i][j].  At outer index i it reads
    entries (i,j) and (j,i) with j >= i, and every entry written earlier
    (at outer index below i) has its smaller coordinate below i, so all
    reads see original values; the diagonal (j = i) is doubled. -/
def symmetrize1 {N : ℕ} (M : Fin N → Fin N → ℚ) (i j : Fin N) : ℚ :=
  M i j + M j i

/-- Symmetrization of the second init variant (src/dimred/TSNE.js lines
    300-307): for j from i+1 both (i,j) and (j,i) become
    (P[i][j]+P[j][i])/(2N); the diagonal is left untouched.  The same
    read-before-write analysis as for symmetrize1 applies. -/
def symmetrize2 {N : ℕ} (M : Fin N → Fin N → ℚ) (i j : Fin N) : ℚ :=
  if i = j then M i j else (M i j + M j i) / (2 * N)

/-- Squared euclidean distance between two embedding rows (the dsum
    accumulator of src/dimred/TSNE.js lines 154-157). -/
def sqdist {d : ℕ} (a b : Fin d → ℚ) : ℚ := ∑ k, (a k - b k) ^ 2

/-- The Student-t matrix Q of next() (src/dimred/TSNE.js lines 149-161):
    allocated as all zeros, and only the entries with i different from j
    are written (to 1/(1+dsum), mirrored); the diagonal stays 0. -/
def Qmat {N d : ℕ} (Y : Fin N → Fin d → ℚ) (i j : Fin N) : ℚ :=
  if i = j then 0 else 1 / (1 + sqdist (Y i) (Y j))

/-- The qsum accumulator of next() (src/dimred/TSNE.js line 160):
    qsum += 2*qu over the strict upper triangle. -/
def qsumSrc {N d : ℕ} (Y : Fin N → Fin d → ℚ) : ℚ :=
  ∑ i, ∑ j ∈ Finset.univ.filter (fun j => i < j), 2 * (1 / (1 + sqdist (Y i) (Y j)))

/-- Gradient of next() as computed by the guarded loop
    (src/dimred/TSNE.js lines 166-180): the j = i summand is skipped. -/
def gradSrc {N d : ℕ} (P : Fin N → Fin N → ℚ) (Y : Fin N → Fin d → ℚ)
    (pmul : ℚ) (i : Fin N) (k : Fin d) : ℚ :=
  ∑ j, if i = j then 0
    else 4 * (pmul * P i j - Qmat Y i j / qsumSrc Y) * Qmat Y i j * (Y i k - Y j k)

/-- Gradient as computed by the unguarded loop of the second variant
    (src/dimred/TSNE.js lines 375-387): no i = j test, the j = i summand
    reads the zero diagonal of Q. -/
def gradUnguarded {N d : ℕ} (P : Fin N → Fin N → ℚ) (Y : Fin N → Fin d → ℚ)
    (pmul : ℚ) (i : Fin N) (k : Fin d) : ℚ :=
  ∑ j, 4 * (pmul * P i j - Qmat Y i j / qsumSrc Y) * Qmat Y i j * (Y i k - Y j k)

/-- Low-dimensional affinity written the way the specification states it:
    Q[i,j] = 1/(1+dist(y_i,y_j)^2); only used off the diagonal. -/
def QSpec {N d : ℕ} (Y : Fin N → Fin d → ℚ) (i j : Fin N) : ℚ :=
  1 / (1 + sqdist (Y i) (Y j))

/-- qsum as the specification states it: the sum of Q[i,j] over all pairs
    with i different from j. -/
def qsumSpec {N d : ℕ} (Y : Fin N → Fin d → ℚ) : ℚ :=
  ∑ i, ∑ j ∈ Finset.univ.erase i, QSpec Y i j

/-- Gradient formula as the specification states it. -/
def gradSpec {N d : ℕ} (P : Fin N → Fin N → ℚ) (Y : Fin N → Fin d → ℚ)
    (pmul : ℚ) (i : Fin N) (k : Fin d) : ℚ :=
  4 * ∑ j ∈ Finset.univ.erase i,
    (pmul * P i j - QSpec Y i j / qsumSpec Y) * QSpec Y i j * (Y i k - Y j k)

/-- Mutable state of one TSNE instance: the fixed target P, the embedding
    Y, the velocity buffer ystep, the adaptive gains, and the iteration
    counter this._iter. -/
structure TState (N d : ℕ) where
  P : Fin N → Fin N → ℚ
  Y : Fin N → Fin d → ℚ
  ystep : Fin N → Fin d → ℚ
  gains : Fin N → Fin d → ℚ
  iter : ℕ

/-- Early-exaggeration multiplier (src/dimred/TSNE.js line 144):
    iter < 100 gives 4, afterwards 1; iter is the already incremented
    counter of the current call. -/
def pmulOf (iter : ℕ) : ℚ := if iter < 100 then 4 else 1

/-- Momentum coefficient (src/dimred/TSNE.js line 145). -/
def momOf (iter : ℕ) : ℚ := if iter < 250 then 1 / 2 else 4 / 5

/-- Gain update of the first variant (src/dimred/TSNE.js line 190):
    increase by 0.2 when gid*sid < 0, otherwise decay by 0.8, clamped
    below at 0.01. -/
def newGain (gid sid gain : ℚ) : ℚ :=
  max (if gid * sid < 0 then gain + 1 / 5 else gain * (4 / 5)) (1 / 100)

/-- The sgn helper of the sgn-comparison variant
    (src/src/dimred/TSNE.js line 131). -/
def sgnJS (x : ℚ) : ℚ := if 0 < x then 1 else if x < 0 then -1 else 0

/-- Gain update of the sgn-comparison variant
    (src/src/dimred/TSNE.js line 152): decay when sgn(gid) = sgn(sid),
    otherwise increase, clamped below at 0.01. -/
def newGainSgn (gid sid gain : ℚ) : ℚ :=
  max (if sgnJS gid = sgnJS sid then gain * (4 / 5) else gain + 1 / 5) (1 / 100)

/-- Gradient used by one call of next(): computed from P and the
    embedding at the start of the step, with the multiplier of the
    incremented counter. -/
def stepGrad {N d : ℕ} (st : TState N d) (i : Fin N) (k : Fin d) : ℚ :=
  gradSrc st.P st.Y (pmulOf (st.iter + 1)) i k

/-- Gains after one call of next() (src/dimred/TSNE.js lines 190-191). -/
def stepGains {N d : ℕ} (st : TState N d) (i : Fin N) (k : Fin d) : ℚ :=
  newGain (stepGrad st i k) (st.ystep i k) (st.gains i k)

/-- Velocity after one call of next() (src/dimred/TSNE.js lines 193-194):
    newsid = momval*sid - epsilon*newgain*gid. -/
def stepVel {N d : ℕ} (eps : ℚ) (st : TState N d) (i : Fin N) (k : Fin d) : ℚ :=
  momOf (st.iter + 1) * st.ystep i k - eps * stepGains st i k * stepGrad st i k

/-- Embedding right after Y_val[i] += newsid (src/dimred/TSNE.js
    line 196), before the centering pass. -/
def stepYraw {N d : ℕ} (eps : ℚ) (st : TState N d) (i : Fin N) (k : Fin d) : ℚ :=
  st.Y i k + stepVel eps st i k

/-- One call of next() of the first variant (src/dimred/TSNE.js lines
    134-207): increment the counter, compute the gradient, update gains,
    velocity and embedding, and re-center every dimension around its
    mean.  P is only read. -/
def next {N d : ℕ} (eps : ℚ) (st : TState N d) : TState N d :=
  ⟨st.P,
   fun i k => stepYraw eps st i k - (∑ m, stepYraw eps st m k) / N,
   stepVel eps st,
   stepGains st,
   st.iter + 1⟩

/-- The body of init() of the first variant (src/dimred/TSNE.js lines
    36-99) on an existing instance: recompute P from the kernel values E,
    draw a fresh noise matrix R for Y (scaled by 1e-4), zero the velocity
    and reset the gains to one.  The field this._iter is written by the
    constructor only and is not touched by init(), so it is carried over
    from the previous state. -/
def reinit {N d : ℕ} (E : Fin N → Fin N → ℚ) (R : Fin N → Fin d → ℚ)
    (st : TState N d) : TState N d :=
  ⟨symmetrize1 (normalizeRow1 (pRaw N E)),
   fun i k => R i k * (1 / 10000),
   fun _ _ => 0,
   fun _ _ => 1,
   st.iter⟩

/-- State of a freshly constructed instance after its first init():
    the constructor sets this._iter = 0. -/
def freshState (N d : ℕ) (E : Fin N → Fin N → ℚ) (R : Fin N → Fin d → ℚ) :
    TState N d :=
  reinit E R ⟨fun _ _ => 0, fun _ _ => 0, fun _ _ => 0, fun _ _ => 0, 0⟩

/-- State of the per-row precision search of init() (src/dimred/TSNE.js
    lines 56-58): current beta and the bounds, where none stands for the
    infinite sentinel values of the source. -/
structure BSState where
  beta : ℚ
  bmin : Option ℚ
  bmax : Option ℚ

/-- One bound-and-beta update of the search (src/dimred/TSNE.js lines
    75-81), parametrized by the entropy H of the current row as a
    function of beta (the transcendental kernel computation of lines
    63-74 is abstracted into H). -/
def bsUpdate (H : ℚ → ℚ) (Htgt : ℚ) (s : BSState) : BSState :=
  if Htgt < H s.beta then
    ⟨match s.bmax with
      | none => 2 * s.beta
      | some bm => (s.beta + bm) / 2,
     some s.beta, s.bmax⟩
  else
    ⟨match s.bmin with
      | none => s.beta / 2
      | some bm => (s.beta + bm) / 2,
     s.bmin, some s.beta⟩

/-- The while loop of the search (src/dimred/TSNE.js line 63:
    while (!done && cnt--)), returning the final state and the number of
    executed loop bodies.  Each body computes H at the current beta,
    updates the bounds and beta, and sets done when |H - Htarget| < tol;
    the done flag is tested at the head of the following round. -/
def bsLoop (H : ℚ → ℚ) (Htgt tol : ℚ) : ℕ → BSState → BSState × ℕ
  | 0, s => (s, 0)
  | n + 1, s =>
    let h := H s.beta
    let s1 := bsUpdate H Htgt s
    if |h - Htgt| < tol then (s1, 1)
    else
      let r := bsLoop H Htgt tol n s1
      (r.1, r.2 + 1)

/- Helper lemmas -/

lemma sqdist_comm {d : ℕ} (a b : Fin d → ℚ) : sqdist a b = sqdist b a := by
  unfold sqdist
  exact Finset.sum_congr rfl fun k _ => by ring

lemma Qmat_comm {N d : ℕ} (Y : Fin N → Fin d → ℚ) (i j : Fin N) :
    Qmat Y i j = Qmat Y j i := by
  unfold Qmat
  rcases eq_or_ne i j with h | h
  · rw [h]
  · rw [if_neg h, if_neg (Ne.symm h), sqdist_comm]

lemma Qmat_diag {N d : ℕ} (Y : Fin N → Fin d → ℚ) (i : Fin N) :
    Qmat Y i i = 0 := by
  simp [Qmat]

lemma sum_swap_triangle {N : ℕ} (f : Fin N → Fin N → ℚ) :
    ∑ i, ∑ j ∈ Finset.univ.filter (fun j => i < j), f i j
      = ∑ i, ∑ j ∈ Finset.univ.filter (fun j => j < i), f j i :=
  Finset.sum_comm' (by intro x y; simp)

lemma sum_erase_split {N : ℕ} (i : Fin N) (g : Fin N → ℚ) :
    ∑ j ∈ Finset.univ.erase i, g j
      = ∑ j ∈ Finset.univ.filter (fun j => i < j), g j
        + ∑ j ∈ Finset.univ.filter (fun j => j < i), g j := by
  rw [← Finset.sum_filter_add_sum_filter_not (Finset.univ.erase i) (fun j => i < j)]
  congr 1
  · apply Finset.sum_congr _ fun _ _ => rfl
    ext j
    simp only [Finset.mem_filter, Finset.mem_erase, Finset.mem_univ, true_and, and_true]
    constructor
    · exact fun h => h.2
    · exact fun h => ⟨Ne.symm (ne_of_lt h), h⟩
  · apply Finset.sum_congr _ fun _ _ => rfl
    ext j
    simp only [Finset.mem_filter, Finset.mem_erase, Finset.mem_univ, true_and, and_true,
      not_lt]
    constructor
    · exact fun h => lt_of_le_of_ne h.2 h.1
    · exact fun h => ⟨ne_of_lt h, le_of_lt h⟩

lemma qsumSrc_eq_total {N d : ℕ} (Y : Fin N → Fin d → ℚ) :
    qsumSrc Y = ∑ i, ∑ j, Qmat Y i j := by
  unfold qsumSrc
  have step1 : ∀ i : Fin N, ∑ j ∈ Finset.univ.filter (fun j => i < j),
      2 * (1 / (1 + sqdist (Y i) (Y j)))
        = ∑ j ∈ Finset.univ.filter (fun j => i < j), (Qmat Y i j + Qmat Y j i) := by
    intro i
    apply Finset.sum_congr rfl
    intro j hj
    rw [Finset.mem_filter] at hj
    have hne : i ≠ j := ne_of_lt hj.2
    rw [Qmat, if_neg hne, Qmat, if_neg (Ne.symm hne), sqdist_comm (Y j)]
    ring
  calc ∑ i, ∑ j ∈ Finset.univ.filter (fun j => i < j),
        2 * (1 / (1 + sqdist (Y i) (Y j)))
      = ∑ i, (∑ j ∈ Finset.univ.filter (fun j => i < j), Qmat Y i j
          + ∑ j ∈ Finset.univ.filter (fun j => i < j), Qmat Y j i) := by
        refine Finset.sum_congr rfl fun i _ => ?_
        rw [step1 i, Finset.sum_add_distrib]
    _ = ∑ i, ∑ j ∈ Finset.univ.filter (fun j => i < j), Qmat Y i j
          + ∑ i, ∑ j ∈ Finset.univ.filter (fun j => i < j), Qmat Y j i := by
        rw [Finset.sum_add_distrib]
    _ = ∑ i, ∑ j ∈ Finset.univ.filter (fun j => i < j), Qmat Y i j
          + ∑ i, ∑ j ∈ Finset.univ.filter (fun j => j < i), Qmat Y i j := by
        congr 1
        exact sum_swap_triangle (fun a b => Qmat Y b a)
    _ = ∑ i, ∑ j ∈ Finset.univ.erase i, Qmat Y i j := by
        rw [← Finset.sum_add_distrib]
        exact Finset.sum_congr rfl fun i _ => (sum_erase_split i (Qmat Y i)).symm
    _ = ∑ i, ∑ j, Qmat Y i j :=
        Finset.sum_congr rfl fun i _ => Finset.sum_erase _ (Qmat_diag Y i)

lemma qsumSrc_eq_spec {N d : ℕ} (Y : Fin N → Fin d → ℚ) :
    qsumSrc Y = qsumSpec Y := by
  rw [qsumSrc_eq_total, qsumSpec]
  refine Finset.sum_congr rfl fun i _ => ?_
  rw [← Finset.sum_erase Finset.univ (Qmat_diag Y i)]
  refine Finset.sum_congr rfl fun j hj => ?_
  rw [Finset.mem_erase] at hj
  rw [Qmat, if_neg (Ne.symm hj.1), QSpec]

lemma gradSrc_eq_spec {N d : ℕ} (P : Fin N → Fin N → ℚ) (Y : Fin N → Fin d → ℚ)
    (pmul : ℚ) (i : Fin N) (k : Fin d) :
    gradSrc P Y pmul i k = gradSpec P Y pmul i k := by
  unfold gradSrc gradSpec
  rw [Finset.mul_sum]
  rw [← Finset.add_sum_erase Finset.univ _ (Finset.mem_univ i), if_pos rfl, zero_add]
  refine Finset.sum_congr rfl fun j hj => ?_
  rw [Finset.mem_erase] at hj
  rw [if_neg (Ne.symm hj.1), Qmat, if_neg (Ne.symm hj.1), QSpec, qsumSrc_eq_spec]
  ring

lemma rowSum_pRaw_pos {N : ℕ} (E : Fin N → Fin N → ℚ) (hE : ∀ i j, 0 ≤ E i j)
    (i : Fin N) : 0 < rowSum (pRaw N E) i := by
  unfold rowSum
  apply Finset.sum_pos'
  · intro j _
    unfold pRaw
    split
    · norm_num
    · exact hE i j
  · refine ⟨i, Finset.mem_univ i, ?_⟩
    simp only [pRaw, if_pos rfl]
    norm_num

lemma rowSum_normalizeRow1 {N : ℕ} (M : Fin N → Fin N → ℚ) (i : Fin N)
    (h : rowSum M i ≠ 0) :
    rowSum (normalizeRow1 M) i = 1 / (2 * N) := by
  simp only [rowSum, normalizeRow1] at h ⊢
  rw [← Finset.sum_mul, mul_one_div, mul_comm (2 * (N : ℚ)) _, div_mul_eq_div_div,
    div_self h]

lemma rowSum_normalizeRow2 {N : ℕ} (M : Fin N → Fin N → ℚ) (i : Fin N)
    (h : rowSum M i ≠ 0) :
    rowSum (normalizeRow2 M) i = 1 := by
  simp only [rowSum, normalizeRow2] at h ⊢
  rw [← Finset.sum_div]
  exact div_self h

lemma totalSum_normalizeRow1 {N : ℕ} (M : Fin N → Fin N → ℚ) (hN : 0 < N)
    (h : ∀ i, rowSum M i ≠ 0) :
    totalSum (normalizeRow1 M) = 1 / 2 := by
  have hNQ : (N : ℚ) ≠ 0 := Nat.cast_ne_zero.mpr (Nat.pos_iff_ne_zero.mp hN)
  unfold totalSum
  calc ∑ i, ∑ j, normalizeRow1 M i j
      = ∑ _i : Fin N, 1 / (2 * (N : ℚ)) :=
        Finset.sum_congr rfl fun i _ => rowSum_normalizeRow1 M i (h i)
    _ = (N : ℚ) * (1 / (2 * N)) := by
        rw [Finset.sum_const, Finset.card_univ, Fintype.card_fin, nsmul_eq_mul]
    _ = 1 / 2 := by
        field_simp
        ring

lemma totalSum_symmetrize1 {N : ℕ} (M : Fin N → Fin N → ℚ) :
    totalSum (symmetrize1 M) = 2 * totalSum M := by
  simp only [totalSum, symmetrize1]
  calc ∑ i, ∑ j, (M i j + M j i)
      = ∑ i, ((∑ j, M i j) + ∑ j, M j i) :=
        Finset.sum_congr rfl fun i _ => Finset.sum_add_distrib
    _ = (∑ i, ∑ j, M i j) + ∑ i, ∑ j, M j i := Finset.sum_add_distrib
    _ = 2 * ∑ i, ∑ j, M i j := by
        rw [Finset.sum_comm, two_mul]

lemma symmetrize1_symm {N : ℕ} (M : Fin N → Fin N → ℚ) (i j : Fin N) :
    symmetrize1 M i j = symmetrize1 M j i := by
  unfold symmetrize1
  ring

lemma symmetrize2_symm {N : ℕ} (M : Fin N → Fin N → ℚ) (i j : Fin N) :
    symmetrize2 M i j = symmetrize2 M j i := by
  unfold symmetrize2
  rcases eq_or_ne i j with h | h
  · rw [h]
  · rw [if_neg h, if_neg (Ne.symm h)]
    ring

lemma totalSum_symmetrize2 {N : ℕ} (M : Fin N → Fin N → ℚ) (hN : 0 < N) :
    totalSum (symmetrize2 M) = totalSum M / N + (1 - 1 / N) * ∑ i, M i i := by
  have hNQ : (N : ℚ) ≠ 0 := Nat.cast_ne_zero.mpr (Nat.pos_iff_ne_zero.mp hN)
  simp only [totalSum, symmetrize2]
  have inner : ∀ i : Fin N, ∑ j, (if i = j then M i j else (M i j + M j i) / (2 * N))
      = M i i + ((∑ j, M i j) + (∑ j, M j i) - 2 * M i i) / (2 * N) := by
    intro i
    rw [← Finset.add_sum_erase Finset.univ _ (Finset.mem_univ i), if_pos rfl]
    congr 1
    calc ∑ j ∈ Finset.univ.erase i, (if i = j then M i j else (M i j + M j i) / (2 * N))
        = ∑ j ∈ Finset.univ.erase i, (M i j + M j i) / (2 * N) :=
          Finset.sum_congr rfl fun j hj =>
            if_neg (Ne.symm (Finset.mem_erase.mp hj).1)
      _ = (∑ j ∈ Finset.univ.erase i, (M i j + M j i)) / (2 * N) :=
          (Finset.sum_div _ _ _).symm
      _ = ((∑ j, (M i j + M j i)) - (M i i + M i i)) / (2 * N) := by
          rw [Finset.sum_erase_eq_sub (Finset.mem_univ i)]
      _ = ((∑ j, M i j) + (∑ j, M j i) - 2 * M i i) / (2 * N) := by
          rw [Finset.sum_add_distrib]
          ring_nf
  calc ∑ i, ∑ j, (if i = j then M i j else (M i j + M j i) / (2 * N))
      = ∑ i, (M i i + ((∑ j, M i j) + (∑ j, M j i) - 2 * M i i) / (2 * N)) :=
        Finset.sum_congr rfl fun i _ => inner i
    _ = (∑ i, M i i)
          + (∑ i, ((∑ j, M i j) + (∑ j, M j i) - 2 * M i i)) / (2 * N) := by
        rw [Finset.sum_add_distrib, Finset.sum_div]
    _ = (∑ i, M i i)
          + ((∑ i, ∑ j, M i j) + (∑ i, ∑ j, M j i) - 2 * ∑ i, M i i) / (2 * N) := by
        congr 1
        rw [Finset.sum_sub_distrib, Finset.sum_add_distrib, ← Finset.mul_sum]
    _ = (∑ i, ∑ j, M i j) / N + (1 - 1 / N) * ∑ i, M i i := by
        rw [show (∑ i : Fin N, ∑ j : Fin N, M j i) = ∑ i, ∑ j, M i j from Finset.sum_comm]
        field_simp
        ring

lemma mul_neg_iff_sgn (gid sid : ℚ) :
    gid * sid < 0 ↔ sgnJS gid ≠ sgnJS sid ∧ gid ≠ 0 ∧ sid ≠ 0 := by
  constructor
  · intro h
    rcases mul_neg_iff.mp h with ⟨hg, hs⟩ | ⟨hg, hs⟩
    · refine ⟨?_, hg.ne', hs.ne⟩
      simp only [sgnJS, if_pos hg, if_neg (lt_asymm hs), if_pos hs]
      norm_num
    · refine ⟨?_, hg.ne, hs.ne'⟩
      simp only [sgnJS, if_neg (lt_asymm hg), if_pos hg, if_pos hs]
      norm_num
  · rintro ⟨hsgn, hg, hs⟩
    apply mul_neg_iff.mpr
    rcases hg.lt_or_lt with hg1 | hg1 <;> rcases hs.lt_or_lt with hs1 | hs1
    · exact absurd (by simp only [sgnJS, if_neg (lt_asymm hg1), if_pos hg1,
        if_neg (lt_asymm hs1), if_pos hs1]) hsgn
    · exact Or.inr ⟨hg1, hs1⟩
    · exact Or.inl ⟨hg1, hs1⟩
    · exact absurd (by simp only [sgnJS, if_pos hg1, if_pos hs1]) hsgn

/- Claim theorems -/

/-- C2: on every call of next(), the gradient applied to the embedding
    equals, in exact arithmetic,
    4 * sum over j distinct from i of
    (pmul*P[i,j] - Q[i,j]/qsum) * Q[i,j] * (y_i[k] - y_j[k]),
    with Q[i,j] = 1/(1+sqdist(y_i,y_j)) and qsum the sum of Q[i,j] over
    all pairs with i distinct from j, both taken at the embedding from
    the start of the step. -/
theorem tsne_c2 {N d : ℕ} (st : TState N d) (i : Fin N) (k : Fin d) :
    stepGrad st i k = gradSpec st.P st.Y (pmulOf (st.iter + 1)) i k
      ∧ qsumSrc st.Y = qsumSpec st.Y :=
  ⟨gradSrc_eq_spec st.P st.Y (pmulOf (st.iter + 1)) i k, qsumSrc_eq_spec st.Y⟩

/-- C4: the early-exaggeration multiplier of next() is
    if iter < 100 then 4 else 1 for the incremented counter iter; it is
    4 at the 99th call, 1 at the 100th call and 1 on every later call,
    and next() advances the counter by exactly one and feeds the
    multiplier of the incremented counter into the gradient. -/
theorem tsne_c4 {N d : ℕ} (n : ℕ) (eps : ℚ) (st : TState N d) :
    pmulOf n = (if n < 100 then 4 else 1)
      ∧ pmulOf 99 = 4
      ∧ pmulOf 100 = 1
      ∧ pmulOf (100 + n) = 1
      ∧ (next eps st).iter = st.iter + 1
      ∧ stepGrad st = gradSrc st.P st.Y (pmulOf (st.iter + 1)) := by
  refine ⟨rfl, by norm_num [pmulOf], by norm_num [pmulOf], ?_, rfl, rfl⟩
  simp [pmulOf]

/-- C7: after every call of next(), every output dimension of the
    embedding sums to zero over all points, because the mean of the
    dimension is subtracted from every point at the end of the step. -/
theorem tsne_c7 {N d : ℕ} (eps : ℚ) (st : TState N d) (k : Fin d) :
    ∑ i, (next eps st).Y i k = 0 := by
  simp only [next]
  rw [Finset.sum_sub_distrib, Finset.sum_const, Finset.card_univ, Fintype.card_fin,
    nsmul_eq_mul]
  rcases Nat.eq_zero_or_pos N with h | h
  · subst h
    simp
  · have hNQ : (N : ℚ) ≠ 0 := Nat.cast_ne_zero.mpr (Nat.pos_iff_ne_zero.mp h)
    rw [mul_div_assoc', mul_div_cancel_left₀ _ hNQ, sub_self]

/-- C8: every gain equals 1 right after init(), and stays at least 0.01
    after any number of next() calls, since every update clamps at the
    floor 0.01. -/
theorem tsne_c8 {N d : ℕ} (E : Fin N → Fin N → ℚ) (R : Fin N → Fin d → ℚ)
    (st0 : TState N d) (eps : ℚ) (n : ℕ) (i : Fin N) (k : Fin d) :
    (reinit E R st0).gains i k = 1
      ∧ 1 / 100 ≤ ((next eps)^[n] (reinit E R st0)).gains i k := by
  refine ⟨rfl, ?_⟩
  cases n with
  | zero =>
    norm_num [reinit]
  | succ m =>
    rw [Function.iterate_succ_apply']
    exact le_max_right _ _

/-- C9 counterexample: on an instance whose counter has reached 300,
    calling init() again leaves the counter at 300, so the first
    subsequent next() call runs with exaggeration multiplier 1 and
    momentum 0.8, while the first call of a freshly constructed run uses
    multiplier 4 and momentum 0.5: the schedules do not restart. -/
theorem tsne_c9_counterexample :
    (reinit (fun _ _ => (1 : ℚ)) (fun _ _ => (0 : ℚ))
        (⟨fun _ _ => 0, fun _ _ => 0, fun _ _ => 0, fun _ _ => 1, 300⟩ : TState 1 1)).iter
      = 300
    ∧ pmulOf ((reinit (fun _ _ => (1 : ℚ)) (fun _ _ => (0 : ℚ))
        (⟨fun _ _ => 0, fun _ _ => 0, fun _ _ => 0, fun _ _ => 1, 300⟩ : TState 1 1)).iter + 1)
      = 1
    ∧ momOf ((reinit (fun _ _ => (1 : ℚ)) (fun _ _ => (0 : ℚ))
        (⟨fun _ _ => 0, fun _ _ => 0, fun _ _ => 0, fun _ _ => 1, 300⟩ : TState 1 1)).iter + 1)
      = 4 / 5
    ∧ pmulOf ((freshState 1 1 (fun _ _ => (1 : ℚ)) (fun _ _ => (0 : ℚ))).iter + 1) = 4
    ∧ momOf ((freshState 1 1 (fun _ _ => (1 : ℚ)) (fun _ _ => (0 : ℚ))).iter + 1) = 1 / 2 := by
  refine ⟨rfl, ?_, ?_, ?_, ?_⟩ <;> norm_num [reinit, freshState, pmulOf, momOf]

/-- C9 amended: calling init() again recomputes P and resets Y to fresh
    noise scaled by 1e-4, the velocity to zero and the gains to one, but
    it does not reset the iteration counter, which keeps its previous
    value, so the exaggeration and momentum schedules continue from the
    prior count instead of behaving as in a fresh run. -/
theorem tsne_c9_amended {N d : ℕ} (E : Fin N → Fin N → ℚ) (R : Fin N → Fin d → ℚ)
    (st : TState N d) (i : Fin N) (k : Fin d) :
    (reinit E R st).Y i k = R i k * (1 / 10000)
      ∧ (reinit E R st).ystep i k = 0
      ∧ (reinit E R st).gains i k = 1
      ∧ (reinit E R st).P = symmetrize1 (normalizeRow1 (pRaw N E))
      ∧ (reinit E R st).iter = st.iter :=
  ⟨rfl, rfl, rfl, rfl, rfl⟩

/-- C10: the diagonal of Q is zero, the j = i summand of the unguarded
    gradient loop is exactly zero for every embedding state, and the
    guarded and the unguarded gradient loops compute identical
    gradients. -/
theorem tsne_c10 {N d : ℕ} (P : Fin N → Fin N → ℚ) (Y : Fin N → Fin d → ℚ)
    (pmul : ℚ) (i : Fin N) (k : Fin d) :
    Qmat Y i i = 0
      ∧ 4 * (pmul * P i i - Qmat Y i i / qsumSrc Y) * Qmat Y i i * (Y i k - Y i k) = 0
      ∧ gradUnguarded P Y pmul i k = gradSrc P Y pmul i k := by
  refine ⟨Qmat_diag Y i, by rw [Qmat_diag]; ring, ?_⟩
  unfold gradUnguarded gradSrc
  refine Finset.sum_congr rfl fun j _ => ?_
  rcases eq_or_ne i j with h | h
  · subst h
    rw [if_pos rfl, Qmat_diag]
    ring
  · rw [if_neg h]

/-- C1 counterexample: in the second init variant the diagonal is not
    rescaled by the symmetrization, so the exact total of P is not 1.
    With two points whose off-diagonal kernel values are 1e-18 (reachable
    with a precomputed distance matrix holding huge distances, which
    drives exp(-dist*beta) far below the 1e-9 self-affinity), the total
    is (2e9+1)/(1e9+1), which differs from 1 by almost 1, far beyond the
    1e-9 tolerance. -/
theorem tsne_c1_counterexample :
    totalSum (symmetrize2 (normalizeRow2
        (pRaw 2 (fun _ _ => 1 / 1000000000000000000)))) ≠ 1
      ∧ |totalSum (symmetrize2 (normalizeRow2
          (pRaw 2 (fun _ _ => 1 / 1000000000000000000)))) - 1|
        > 1 / 1000000000 := by
  have h : totalSum (symmetrize2 (normalizeRow2
      (pRaw 2 (fun _ _ => 1 / 1000000000000000000))))
      = 2000000001 / 1000000001 := by
    norm_num [totalSum, symmetrize2, normalizeRow2, rowSum, pRaw, Fin.sum_univ_two]
  constructor
  · rw [h]
    norm_num
  · rw [h, show (2000000001 / 1000000001 : ℚ) - 1 = 1000000000 / 1000000001 by norm_num,
      abs_of_pos (by norm_num)]
    norm_num

/-- C1 amended: after the symmetrization of the first init variant, P is
    symmetric, its entries sum exactly to 1, and next() never mutates P.
    The second init variant also produces a symmetric matrix that next()
    never mutates, but its exact total is totalSum/N plus (1-1/N) times
    the (strictly positive) unrescaled diagonal mass, hence strictly
    above 1; it equals 1 only up to that diagonal term (typically below
    the 1e-9 tolerance, but not in degenerate runs). -/
theorem tsne_c1_amended :
    (∀ (N : ℕ) (M : Fin N → Fin N → ℚ) (i j : Fin N),
      symmetrize1 M i j = symmetrize1 M j i)
    ∧ (∀ (N : ℕ) (E : Fin N → Fin N → ℚ), 0 < N → (∀ i j, 0 ≤ E i j) →
        totalSum (symmetrize1 (normalizeRow1 (pRaw N E))) = 1)
    ∧ (∀ (N d : ℕ) (eps : ℚ) (st : TState N d), (next eps st).P = st.P)
    ∧ (∀ (N : ℕ) (M : Fin N → Fin N → ℚ) (i j : Fin N),
        symmetrize2 M i j = symmetrize2 M j i)
    ∧ (∀ (N : ℕ) (M : Fin N → Fin N → ℚ), 0 < N →
        totalSum (symmetrize2 M) = totalSum M / N + (1 - 1 / N) * ∑ i, M i i) := by
  refine ⟨fun N M i j => symmetrize1_symm M i j, ?_,
    fun N d eps st => rfl, fun N M i j => symmetrize2_symm M i j,
    fun N M hN => totalSum_symmetrize2 M hN⟩
  intro N E hN hE
  rw [totalSum_symmetrize1,
    totalSum_normalizeRow1 (pRaw N E) hN (fun i => (rowSum_pRaw_pos E hE i).ne')]
  norm_num

/-- C1 witness: the hypothesis-bearing parts of the amended claim at a
    concrete two-point input with constant kernel value 1. -/
theorem tsne_c1_witness :
    totalSum (symmetrize1 (normalizeRow1 (pRaw 2 (fun _ _ => 1)))) = 1
      ∧ totalSum (symmetrize2 (fun _ _ : Fin 2 => (1 : ℚ)))
        = totalSum (fun _ _ : Fin 2 => (1 : ℚ)) / ((2 : ℕ) : ℚ)
          + (1 - 1 / ((2 : ℕ) : ℚ)) * ∑ _i : Fin 2, (1 : ℚ) :=
  ⟨tsne_c1_amended.2.1 2 (fun _ _ => 1) (by norm_num) (fun _ _ => by norm_num),
   tsne_c1_amended.2.2.2.2 2 (fun _ _ => (1 : ℚ)) (by norm_num)⟩

/-- C3 counterexample: the claim reads the gain rule as driven by sign
    disagreement of gradient and prior velocity.  At gradient 1,
    velocity 0 and gain 1 the signs disagree (sgn 1 = 1, sgn 0 = 0), so
    the claimed rule yields max(1+0.2, 0.01) = 1.2, but the primary
    variant tests gid*sid < 0, which fails at zero velocity, and yields
    0.8; the sgn-comparison variant yields 1.2, so the two cited variants
    also disagree with each other (this situation occurs on the very
    first step, whose velocities are all zero). -/
theorem tsne_c3_counterexample :
    sgnJS 1 ≠ sgnJS 0
      ∧ newGain 1 0 1 = 4 / 5
      ∧ newGain 1 0 1 ≠ max (1 + 1 / 5) (1 / 100)
      ∧ newGainSgn 1 0 1 = max (1 + 1 / 5) (1 / 100)
      ∧ newGain 1 0 1 ≠ newGainSgn 1 0 1 := by
  refine ⟨?_, ?_, ?_, ?_, ?_⟩ <;> norm_num [newGain, newGainSgn, sgnJS, max_def]

/-- C3 amended: in the primary variant the gain increases by 0.2 exactly
    when the new gradient and the prior velocity have strictly opposite
    signs (gid*sid < 0) and decays by the factor 0.8 otherwise,
    including when either quantity is zero; in both cases it is clamped
    below at 0.01.  The strict product test coincides with sign
    disagreement precisely when both quantities are nonzero (the
    sgn-comparison variant instead increases the gain whenever the signs
    differ, which additionally covers the one-sided zero cases).  Then
    the new velocity is momentum*velocity - learning_rate*gain*gradient
    with momentum 0.5 while the incremented counter is below 250 and 0.8
    afterwards, and the embedding entry is increased by the new velocity
    before the centering pass. -/
theorem tsne_c3_amended {N d : ℕ} (eps : ℚ) (st : TState N d) (i : Fin N)
    (k : Fin d) :
    (next eps st).gains i k
        = max (if stepGrad st i k * st.ystep i k < 0
            then st.gains i k + 1 / 5 else st.gains i k * (4 / 5)) (1 / 100)
      ∧ (next eps st).ystep i k
        = momOf (st.iter + 1) * st.ystep i k
            - eps * (next eps st).gains i k * stepGrad st i k
      ∧ stepYraw eps st i k = st.Y i k + (next eps st).ystep i k
      ∧ momOf (st.iter + 1) = (if st.iter + 1 < 250 then 1 / 2 else 4 / 5)
      ∧ (∀ gid sid : ℚ, (gid * sid < 0 ↔ sgnJS gid ≠ sgnJS sid ∧ gid ≠ 0 ∧ sid ≠ 0))
      ∧ (∀ gid sid gain : ℚ, newGainSgn gid sid gain
          = max (if sgnJS gid = sgnJS sid then gain * (4 / 5) else gain + 1 / 5) (1 / 100)) :=
  ⟨rfl, rfl, rfl, rfl, fun gid sid => mul_neg_iff_sgn gid sid, fun _ _ _ => rfl⟩

/-- C5: for every entropy profile H (covering all inputs, degenerate
    ones included), target and tolerance, the while loop of the per-row
    precision search executes at most 50 bodies and, as soon as the
    entropy at the current beta is within tolerance of the target, stops
    after that body. -/
theorem tsne_c5 (H : ℚ → ℚ) (Htgt tol : ℚ) (s : BSState) :
    (bsLoop H Htgt tol 50 s).2 ≤ 50
      ∧ (|H s.beta - Htgt| < tol → (bsLoop H Htgt tol 50 s).2 = 1) := by
  have hle : ∀ (n : ℕ) (t : BSState), (bsLoop H Htgt tol n t).2 ≤ n := by
    intro n
    induction n with
    | zero => intro t; exact Nat.le_refl 0
    | succ m ih =>
      intro t
      rw [bsLoop]
      split
      · exact Nat.one_le_iff_ne_zero.mpr (Nat.succ_ne_zero m)
      · exact Nat.succ_le_succ (ih (bsUpdate H Htgt t))
  refine ⟨hle 50 s, fun hdone => ?_⟩
  have : (bsLoop H Htgt tol (49 + 1) s).2 = 1 := by
    rw [bsLoop, if_pos hdone]
  exact this

/-- C5 witness: a profile whose entropy is immediately within tolerance
    stops after one body; the budget bound holds there as well. -/
theorem tsne_c5_witness :
    (bsLoop (fun _ => 0) 0 1 50 ⟨1, none, none⟩).2 = 1
      ∧ (bsLoop (fun _ => 0) 0 1 50 ⟨1, none, none⟩).2 ≤ 50 :=
  ⟨(tsne_c5 (fun _ => 0) 0 1 ⟨1, none, none⟩).2 (by norm_num),
   (tsne_c5 (fun _ => 0) 0 1 ⟨1, none, none⟩).1⟩

/-- C6 counterexample: in the first init variant the loop that the
    comment calls normalize row multiplies by 1/(2*N*psum), so a row of
    P sums to 1/(2N) and not to 1: with two points and constant kernel
    value 1 the first row sums to 1/4. -/
theorem tsne_c6_counterexample :
    rowSum (normalizeRow1 (pRaw 2 (fun _ _ => 1))) 0 = 1 / 4
      ∧ rowSum (normalizeRow1 (pRaw 2 (fun _ _ => 1))) 0 ≠ 1 := by
  constructor <;> norm_num [rowSum, normalizeRow1, pRaw, Fin.sum_univ_two]

/-- C6 amended: before symmetrization, every row with nonzero kernel sum
    sums to 1/(2N) in the first init variant (the factor 1/(2N) of the
    symmetrization step is folded into the row normalization), and to
    exactly 1 in the second init variant. -/
theorem tsne_c6_amended {N : ℕ} (M : Fin N → Fin N → ℚ) (i : Fin N)
    (h : rowSum M i ≠ 0) :
    rowSum (normalizeRow1 M) i = 1 / (2 * N)
      ∧ rowSum (normalizeRow2 M) i = 1 :=
  ⟨rowSum_normalizeRow1 M i h, rowSum_normalizeRow2 M i h⟩

/-- C6 witness: the amended claim at a concrete one-point matrix with
    entry 3. -/
theorem tsne_c6_witness :
    rowSum (normalizeRow1 (fun _ _ : Fin 1 => (3 : ℚ))) 0 = 1 / (2 * ((1 : ℕ) : ℚ))
      ∧ rowSum (normalizeRow2 (fun _ _ : Fin 1 => (3 : ℚ))) 0 = 1 :=
  tsne_c6_amended (fun _ _ => (3 : ℚ)) 0 (by norm_num [rowSum, Fin.sum_univ_one])

end DruidJS
